import Mathlib

/-!
Verification of the Nyathena session-server core against its specification.

Go strings are embedded as `List Char` (one entry per rune) with an explicit
UTF-8 byte-length function modelling Go's `len()`.  Pure functions of the
source are translated directly; where a claim depends on code of the
repository that is not part of the available sources (only its tests or
callers are), the missing definition is modelled from the specification and
marked `Modelled from the spec:` in its doc comment.
-/

/-- Go strings, embedded rune by rune. -/
abbrev Str := List Char

/-- Converts a Lean string literal to the embedding type. -/
def strOf (s : String) : Str := s.toList

/-- Number of bytes of the UTF-8 encoding of one rune. -/
def utf8CharLen (c : Char) : Nat :=
  if c.toNat < 0x80 then 1
  else if c.toNat < 0x800 then 2
  else if c.toNat < 0x10000 then 3
  else 4

/-- Byte length of a string: Go's `len(s)` on a `string`. -/
def byteLen (s : Str) : Nat := (s.map utf8CharLen).sum

/-- Go's `strings.Join(elems, sep)`. -/
def goJoin (sep : Str) : List Str → Str
  | [] => []
  | [s] => s
  | s :: rest => s ++ sep ++ goJoin sep rest

/-- Wire encoding of one packet, as built by `Client.SendPacket` (see the
test double in `chunking_test.go`): `header + "#" + strings.Join(contents, "#") + "#%"`. -/
def encodePacket (header : Str) (contents : List Str) : Str :=
  header ++ ['#'] ++ goJoin ['#'] contents ++ ['#', '%']

/-- Modelled from the spec: the greedy chunk grouping inside
`sendChunkedPacket` (the function itself is not under the available sources;
only its tests are).  Per the spec, items are appended to the current chunk
until the next item would overflow the size budget, at which point the
current chunk is sealed and a new one started.  `cur` is the chunk under
construction. -/
def chunkGreedy (maxSize : Nat) (header : Str) : List Str → List Str → List (List Str)
  | [], cur => [cur]
  | i :: rest, cur =>
      if cur ≠ [] ∧ maxSize < byteLen (encodePacket header (cur ++ [i])) then
        cur :: chunkGreedy maxSize header rest [i]
      else
        chunkGreedy maxSize header rest (cur ++ [i])

/-- Modelled from the spec: `sendChunkedPacket` (not under the available
sources; only `chunking_test.go` is).  Splits `contents` into greedy chunks
and emits one complete packet per chunk, all sharing `header`.  The returned
list is the ordered sequence of packets written to the client; `maxSize`
models the configured `maxChunkedPacketSize`. -/
def sendChunkedPacket (maxSize : Nat) (header : Str) (contents : List Str) : List Str :=
  (chunkGreedy maxSize header contents []).map (encodePacket header)

/-! Punishment text transforms (`internal/athena/punishments.go`). -/

/-- `maxTextLength` from `punishments.go`. -/
def maxTextLength : Nat := 2000

/-- `safeSubstring` from `punishments.go`: extracts `length` runes starting at
rune index `start`, with bounds checking. -/
def safeSubstring (s : Str) (start length : Nat) : Str :=
  if s.length ≤ start then []
  else (s.take (min (start + length) s.length)).drop start

/-- `truncateText` from `punishments.go`: returns the input unchanged when its
byte length (Go `len`) is at most `maxTextLength`, and otherwise the first
`maxTextLength` runes. -/
def truncateText (s : Str) : Str :=
  if maxTextLength < byteLen s then safeSubstring s 0 maxTextLength else s

/-- The fragment of Go's `unicode.IsSpace` reachable from the claims: ASCII and
Latin-1 white space. -/
def isSpaceGo (c : Char) : Bool :=
  c = ' ' ∨ c = '\t' ∨ c = '\n' ∨ c = '\x0b' ∨ c = '\x0c' ∨ c = '\r' ∨
  c = '\x85' ∨ c = '\xa0'

/-- Helper for `goFields`: accumulates the current word (in reverse). -/
def goFieldsAux : Str → Str → List Str
  | [], cur => if cur = [] then [] else [cur.reverse]
  | c :: rest, cur =>
      if isSpaceGo c then
        if cur = [] then goFieldsAux rest [] else cur.reverse :: goFieldsAux rest []
      else goFieldsAux rest (c :: cur)

/-- Go's `strings.Fields`: splits around runs of white space. -/
def goFields (s : Str) : List Str := goFieldsAux s []

/-- The ASCII fragment of Go's `unicode.ToUpper`, used by `strings.ToUpper`. -/
def toUpperGo (c : Char) : Char :=
  if 'a' ≤ c ∧ c ≤ 'z' then Char.ofNat (c.toNat - 32) else c

/-- `applyUppercase` from `punishments.go`: `strings.ToUpper`. -/
def applyUppercase (s : Str) : Str := s.map toUpperGo

/-- `applyBackward` from `punishments.go`: reverses rune order. -/
def applyBackward (s : Str) : Str := s.reverse

/-- `applyStutterstep` from `punishments.go`: doubles every word ("w" becomes
"w w"), joins the words with single spaces, and truncates. -/
def applyStutterstep (s : Str) : Str :=
  truncateText (goJoin [' '] ((goFields s).map (fun w => w ++ ' ' :: w)))

/-- The vowels doubled by `applyElongate`. -/
def elongateVowels : Str := strOf "aeiouAEIOU"

/-- `applyElongate` from `punishments.go`: writes each rune, repeating vowels
twice more, then truncates. -/
def applyElongate (s : Str) : Str :=
  truncateText ((s.map (fun c => if c ∈ elongateVowels then [c, c, c] else [c])).flatten)

/-- The robot word pool of `applyRobotic`. -/
def robotWords : List Str := [strOf "[BEEP]", strOf "[BOOP]", strOf "[WHIRR]", strOf "[BUZZ]"]

/-- `applyRobotic` from `punishments.go`: replaces the i-th word with the
i-th robot word (cycling through a pool of four), and truncates; an input
with no words yields `"[BEEP]"`. -/
def applyRobotic (s : Str) : Str :=
  let words := goFields s
  if words.length = 0 then strOf "[BEEP]"
  else truncateText (goJoin [' ']
    ((List.range words.length).map (fun i => robotWords.getD (i % robotWords.length) [])))

/-- Modelled from the spec: the per-message punishment application loop (it
lives in the client message handler, which is not under the available
sources).  Active effects are applied in insertion order, each effect's
output becoming the next effect's input. -/
def applyPunishmentPipeline (effects : List (Str → Str)) (text : Str) : Str :=
  effects.foldl (fun acc f => f acc) text

/-! Punishment pipeline state (spec section 4.6; the `Client` type and
`AddPunishment` are not under the available sources — only their tests and
callers are). -/

/-- The punishment types named by the claims and tests; the full enumeration
in the source is larger, but only the constructors exercised by the claims
are needed to state them. -/
inductive PunishmentType
  | none
  | uppercase
  | lowercase
  | backward
  | stutterstep
  | elongate
  | robotic
  | uwu
deriving DecidableEq, Repr

/-- One active punishment entry of a client, as constructed by
`AddPunishment(type, duration, reason)`; `duration` models the
`time.Duration` argument in nanoseconds. -/
structure PunishmentState where
  punishmentType : PunishmentType
  duration : Nat
  reason : Str
deriving DecidableEq, Repr

/-- Modelled from the spec: `Client.AddPunishment` (not under the available
sources; only `features_test.go` is).  If an entry of the same type exists it
is replaced in place; otherwise a new entry is appended. -/
def addPunishment (ps : List PunishmentState) (t : PunishmentType) (d : Nat) (r : Str) :
    List PunishmentState :=
  if ps.any (fun p => p.punishmentType = t) then
    ps.map (fun p => if p.punishmentType = t then ⟨t, d, r⟩ else p)
  else
    ps ++ [⟨t, d, r⟩]

/-! UID allocator (spec section 4.7; the allocator is not under the
available sources). -/

/-- Modelled from the spec: the search for the lowest currently-unused id.
Scans upward from `cur` over `fuel` candidates, skipping live ids. -/
def findFreeUid (live : List Nat) : Nat → Nat → Option Nat
  | 0, _ => Option.none
  | fuel + 1, cur => if cur ∈ live then findFreeUid live fuel (cur + 1) else some cur

/-- Modelled from the spec: `Allocate()` on a pool of size `n` returns the
lowest integer of `[0, n)` not currently issued, or a full-capacity error
(`none`) if none remain. -/
def uidAllocate (n : Nat) (live : List Nat) : Option Nat := findFreeUid live n 0

/-- One operation against the UID pool. -/
inductive UidOp
  | alloc
  | release (id : Nat)
deriving DecidableEq, Repr

/-- Modelled from the spec: one step of the allocator.  `Allocate` issues the
lowest free id (recorded at the end of the live list); a failed `Allocate`
leaves the pool unchanged; `Release(id)` returns an id to the pool. -/
def uidStep (n : Nat) (live : List Nat) : UidOp → List Nat
  | .alloc =>
      match uidAllocate n live with
      | some x => live ++ [x]
      | Option.none => live
  | .release id => live.erase id

/-- The live-id multiset after a sequence of operations on an initially
empty pool of size `n`. -/
def uidRun (n : Nat) (ops : List UidOp) : List Nat := ops.foldl (uidStep n) []

/-! Client registry (`internal/athena/clientlist.go`).  The Go registry is a
mutex-protected `map[*Client]struct{}`; clients are embedded as identities
(naturals) and the map as a duplicate-free membership list. -/

/-- `ClientList.AddClient`: map insertion (idempotent on the key set). -/
def addClient (cl : List Nat) (c : Nat) : List Nat :=
  if c ∈ cl then cl else cl ++ [c]

/-- `ClientList.RemoveClient`: map key deletion. -/
def removeClient (cl : List Nat) (c : Nat) : List Nat := cl.erase c

/-- `ClientList.GetAllClients`: a snapshot copy of the current membership,
taken so callers can iterate safely without holding a lock. -/
def getAllClients (cl : List Nat) : List Nat := cl.map id

/-- One registry mutation. -/
inductive RegOp
  | add (c : Nat)
  | remove (c : Nat)
deriving DecidableEq, Repr

/-- Applies a sequence of registry mutations. -/
def applyRegOps (ops : List RegOp) (cl : List Nat) : List Nat :=
  ops.foldl (fun s op => match op with
    | RegOp.add c => addClient s c
    | RegOp.remove c => removeClient s c) cl

/-! Area lock state machine (`cmdLock` / `cmdUnlock` in
`internal/athena/commands.go`).  The `area` package itself is not under the
available sources; its accessors (`Lock`, `SetLock`, `AddInvited`,
`ClearInvited`) are modelled from the spec as the evident set operations. -/

/-- The lock states of an area (`area.LockFree` / `LockLocked` /
`LockSpectatable`). -/
inductive LockState
  | free
  | locked
  | spectatable
deriving DecidableEq, Repr

/-- The area fields touched by `cmdLock`/`cmdUnlock`.  Modelled from the
spec: the invited set is a set of UIDs, meaningful only while locked. -/
structure AreaState where
  lock : LockState := .free
  invited : List Nat := []
deriving DecidableEq, Repr

/-- Modelled from the spec: `Area.AddInvited` adds a UID to the invited set
(idempotent set insertion). -/
def addInvited (a : AreaState) (uid : Nat) : AreaState :=
  if uid ∈ a.invited then a else { a with invited := a.invited ++ [uid] }

/-- The server state read by `cmdLock`/`cmdUnlock`: the area list and the
registry of clients, each paired as (uid, index of its current area). -/
structure LockServer where
  areas : List AreaState
  occupants : List (Nat × Nat)
deriving DecidableEq, Repr

/-- The area at index `i` (the handlers only ever use a live client's own
area, which always exists). -/
def getArea (st : LockServer) (i : Nat) : AreaState := st.areas.getD i {}

/-- Replaces the area at index `i`. -/
def setArea (st : LockServer) (i : Nat) (a : AreaState) : LockServer :=
  { st with areas := st.areas.set i a }

/-- The auto-invite loop of `cmdLock`: for every registered client whose
current area is the caller's area, add its UID to that area's invited set. -/
def inviteOccupants (st : LockServer) (ci : Nat) : LockServer :=
  st.occupants.foldl
    (fun s c => if c.2 = ci then setArea s ci (addInvited (getArea s ci) c.1) else s) st

/-- `cmdLock` from `commands.go`, for a caller whose area has index `ci`;
`spectate` is whether the arguments contain `"-s"`.  Returns the new server
state and the messages shown to the caller or the area. -/
def cmdLock (st : LockServer) (ci : Nat) (spectate : Bool) : LockServer × List Str :=
  if spectate then
    let st1 := setArea st ci { getArea st ci with lock := .spectatable }
    (inviteOccupants st1 ci, [strOf "set the area to spectatable."])
  else if (getArea st ci).lock = .locked then
    (st, [strOf "This area is already locked."])
  else if ci = 0 then
    (st, [strOf "You cannot lock area 0."])
  else
    let st1 := setArea st ci { getArea st ci with lock := .locked }
    (inviteOccupants st1 ci, [strOf "locked the area."])

/-- `cmdUnlock` from `commands.go`: rejects when the area is free, otherwise
sets the lock state back to free and clears the invited set. -/
def cmdUnlock (st : LockServer) (ci : Nat) : LockServer × List Str :=
  if (getArea st ci).lock = .free then
    (st, [strOf "This area is not locked."])
  else
    (setArea st ci { getArea st ci with lock := .free, invited := [] },
     [strOf "unlocked the area."])

/-! Testimony recorder (`cmdTestimony` in `internal/athena/commands.go`).
The `area` package's recorder accessors are modelled from the spec. -/

/-- The recorder states (`area.TRIdle` / `TRRecording` / `TRPlayback` /
`TRUpdating` / `TRInserting`). -/
inductive TstState
  | idle
  | recording
  | playback
  | updating
  | inserting
deriving DecidableEq, Repr

/-- The area fields touched by `cmdTestimony`. -/
structure TstArea where
  tstState : TstState := .idle
  testimony : List Str := []
  tstIndex : Nat := 0
deriving DecidableEq, Repr

/-- An observable effect of `cmdTestimony`: a message to the caller, or a
packet broadcast to the area (`writeToArea`). -/
inductive TstEff
  | callerMsg (text : Str)
  | areaPacket (header : Str) (body : Str)
deriving DecidableEq, Repr

/-- Modelled from the spec: `Area.HasTestimony` — at least one statement is
recorded. -/
def hasTestimony (a : TstArea) : Bool := 0 < a.testimony.length

/-- Modelled from the spec: `Area.CurrentTstStatement` — the statement at the
current index. -/
def currentTstStatement (a : TstArea) : Str := a.testimony.getD a.tstIndex []

/-- Modelled from the spec: `Area.TstRemove` deletes the statement at the
current index, stepping the index back to the previous statement; it fails
when the index is out of range. -/
def tstRemove (a : TstArea) : Option TstArea :=
  if a.tstIndex < a.testimony.length then
    some { a with testimony := a.testimony.eraseIdx a.tstIndex, tstIndex := a.tstIndex - 1 }
  else
    Option.none

/-- `cmdTestimony` from `commands.go`, acting on the caller's area `a`;
`hasCM` is `client.HasCMPermission()`.  Returns the updated area and the
emitted effects in order. -/
def cmdTestimony (a : TstArea) (hasCM : Bool) (args : List Str) : TstArea × List TstEff :=
  match args with
  | [] =>
      if ¬hasTestimony a then (a, [.callerMsg (strOf "This area has no recorded testimony.")])
      else (a, [.callerMsg (goJoin ['\n'] a.testimony)])
  | arg :: _ =>
      if ¬hasCM then (a, [.callerMsg (strOf "You do not have permission to use that command.")])
      else if arg = strOf "record" then
        if a.tstState ≠ .idle then (a, [.callerMsg (strOf "The recorder is currently active.")])
        else ({ a with testimony := [], tstIndex := 0, tstState := .recording },
              [.callerMsg (strOf "Recording testimony.")])
      else if arg = strOf "stop" then
        ({ a with tstState := .idle, tstIndex := 0 },
         [.callerMsg (strOf "Recorder stopped."), .areaPacket (strOf "RT") (strOf "testimony1#1")])
      else if arg = strOf "play" then
        if ¬hasTestimony a then (a, [.callerMsg (strOf "No testimony recorded.")])
        else ({ a with tstState := .playback },
              [.callerMsg (strOf "Playing testimony."),
               .areaPacket (strOf "RT") (strOf "testimony2"),
               .areaPacket (strOf "MS") (currentTstStatement a)])
      else if arg = strOf "update" then
        if a.tstState ≠ .playback then (a, [.callerMsg (strOf "The recorder is not active.")])
        else ({ a with tstState := .updating }, [])
      else if arg = strOf "insert" then
        if a.tstState ≠ .playback then (a, [.callerMsg (strOf "The recorder is not active.")])
        else ({ a with tstState := .inserting }, [])
      else if arg = strOf "delete" then
        if a.tstState ≠ .playback then (a, [.callerMsg (strOf "The recorder is not active.")])
        else if 0 < a.tstIndex then
          match tstRemove a with
          | some a2 => (a2, [])
          | Option.none => (a, [.callerMsg (strOf "Failed to delete statement.")])
        else (a, [])
      else (a, [])

/-! Hot-potato timed background tasks (`hotPotatoOptInTimer` and
`hotPotatoGameTimer`).  The state record mirrors `hotPotatoState`; the
timers' post-sleep bodies are embedded as pure transitions emitting an
ordered list of I/O effects.  `connected` models which UIDs
`getClientByUid` currently resolves, `pick` the random carrier draw, and
`now` the wall clock read by `time.Now()`. -/

/-- `hotPotatoState` from the source: the mutex-protected lifecycle state.
`lastGameEnd = none` models the zero `time.Time`. -/
structure HotPotatoState where
  optInActive : Bool := false
  gameActive : Bool := false
  participants : List Nat := []
  carrierUID : Int := -1
  lastGameEnd : Option Nat := Option.none
deriving DecidableEq, Repr

/-- The I/O an awakened hot-potato timer can perform, in order. -/
inductive HPEff
  | cancelAnnounce (got required : Nat)
  | startAnnounce (playerCount : Nat)
  | carrierNotice (uid : Nat)
  | spawnGameTimer (uid : Nat)
  | resolveGame (carrierUID : Nat) (participantUIDs : List Nat)
deriving DecidableEq, Repr

/-- `hotPotatoMinParticipants` from the source. -/
def hotPotatoMinParticipants : Nat := 2

/-- The body of `hotPotatoOptInTimer` after its sleep: under the lock it
first checks `optInActive` and returns with no effect if the window was
already closed out; otherwise it closes the window, filters the opted-in
UIDs to still-connected players, and either cancels (too few players) or
arms the game, announces it, notifies the carrier, and spawns the game
timer. -/
def hotPotatoOptInTimerWake (st : HotPotatoState) (connected : List Nat) (pick : Nat)
    (now : Nat) : HotPotatoState × List HPEff :=
  if ¬st.optInActive then (st, [])
  else
    let st1 := { st with optInActive := false }
    let validUIDs := st1.participants.filter (fun uid => uid ∈ connected)
    if validUIDs.length < hotPotatoMinParticipants then
      ({ st1 with lastGameEnd := some now },
       [.cancelAnnounce validUIDs.length hotPotatoMinParticipants])
    else
      let carrierUID := validUIDs.getD (pick % validUIDs.length) 0
      ({ st1 with carrierUID := Int.ofNat carrierUID, gameActive := true },
       [.startAnnounce validUIDs.length] ++
       (if carrierUID ∈ connected then [.carrierNotice carrierUID] else []) ++
       [.spawnGameTimer carrierUID])

/-- The body of `hotPotatoGameTimer` after its sleep: under the lock it
first checks `gameActive` and returns with no effect if the game was already
resolved; otherwise it closes the game, records the end time, snapshots the
participants, and hands off to `hotPotatoResolve`. -/
def hotPotatoGameTimerWake (carrierUID : Nat) (st : HotPotatoState) (now : Nat) :
    HotPotatoState × List HPEff :=
  if ¬st.gameActive then (st, [])
  else
    ({ st with gameActive := false, optInActive := false, lastGameEnd := some now },
     [.resolveGame carrierUID st.participants])

/-! Anonymized identity token (`getIpid` in `internal/discord/bot/bot.go`):
the base64-encoded MD5 hash of the peer's IP with the source port stripped
by `net.SplitHostPort` and the two base64 padding characters trimmed.
Indices here are rune positions; the reserved characters `:`/`[`/`]` are
ASCII, so the split agrees with Go's byte-level indexing. -/

/-- Index of the last occurrence of `c`, Go's `last(s, b)`. -/
def lastIndexOf? (c : Char) : Str → Option Nat
  | [] => Option.none
  | x :: xs =>
      match lastIndexOf? c xs with
      | some i => some (i + 1)
      | Option.none => if x = c then some 0 else Option.none

/-- Index of the first occurrence of `c`, Go's `byteIndex(s, b)`. -/
def indexOfChar? (c : Char) : Str → Option Nat
  | [] => Option.none
  | x :: xs => if x = c then some 0 else (indexOfChar? c xs).map (· + 1)

/-- Whether `c` occurs in `s` (`byteIndex(s, c) >= 0`). -/
def containsChar (s : Str) (c : Char) : Bool := s.any (fun x => x = c)

/-- Go's `net.SplitHostPort`: splits `"host:port"` / `"[host]:port"` into
host and port.  All error cases collapse to `none`, since `getIpid` only
checks whether an error occurred. -/
def splitHostPort (s : Str) : Option (Str × Str) :=
  match lastIndexOf? ':' s with
  | Option.none => Option.none
  | some i =>
      if s.headD ' ' = '[' then
        match indexOfChar? ']' s with
        | Option.none => Option.none
        | some e =>
            if e + 1 = s.length then Option.none
            else if e + 1 = i then
              if containsChar (s.drop 1) '[' then Option.none
              else if containsChar (s.drop (e + 1)) ']' then Option.none
              else some ((s.take e).drop 1, s.drop (i + 1))
            else Option.none
      else
        if containsChar (s.take i) ':' then Option.none
        else if containsChar s '[' then Option.none
        else if containsChar s ']' then Option.none
        else some (s.take i, s.drop (i + 1))

/-- UTF-8 encoding of one rune, Go's `[]byte(string(r))`. -/
def utf8EncodeChar (c : Char) : List Nat :=
  let n := c.toNat
  if n < 0x80 then [n]
  else if n < 0x800 then [0xC0 ||| (n >>> 6), 0x80 ||| (n &&& 0x3F)]
  else if n < 0x10000 then
    [0xE0 ||| (n >>> 12), 0x80 ||| ((n >>> 6) &&& 0x3F), 0x80 ||| (n &&& 0x3F)]
  else
    [0xF0 ||| (n >>> 18), 0x80 ||| ((n >>> 12) &&& 0x3F),
     0x80 ||| ((n >>> 6) &&& 0x3F), 0x80 ||| (n &&& 0x3F)]

/-- UTF-8 bytes of a string, Go's `[]byte(s)`. -/
def utf8Encode (s : Str) : List Nat := (s.map utf8EncodeChar).flatten

/-- Addition modulo 2^32. -/
def add32 (a b : Nat) : Nat := (a + b) % 4294967296

/-- Left rotation of a 32-bit word. -/
def rotl32 (x s : Nat) : Nat :=
  ((x <<< s) ||| (x >>> (32 - s))) % 4294967296

/-- Bitwise complement of a 32-bit word. -/
def not32 (x : Nat) : Nat := 4294967295 ^^^ x

/-- The MD5 sine-derived round constants. -/
def md5K : List Nat := [
  0xd76aa478, 0xe8c7b756, 0x242070db, 0xc1bdceee, 0xf57c0faf, 0x4787c62a, 0xa8304613, 0xfd469501,
  0x698098d8, 0x8b44f7af, 0xffff5bb1, 0x895cd7be, 0x6b901122, 0xfd987193, 0xa679438e, 0x49b40821,
  0xf61e2562, 0xc040b340, 0x265e5a51, 0xe9b6c7aa, 0xd62f105d, 0x02441453, 0xd8a1e681, 0xe7d3fbc8,
  0x21e1cde6, 0xc33707d6, 0xf4d50d87, 0x455a14ed, 0xa9e3e905, 0xfcefa3f8, 0x676f02d9, 0x8d2a4c8a,
  0xfffa3942, 0x8771f681, 0x6d9d6122, 0xfde5380c, 0xa4beea44, 0x4bdecfa9, 0xf6bb4b60, 0xbebfbc70,
  0x289b7ec6, 0xeaa127fa, 0xd4ef3085, 0x04881d05, 0xd9d4d039, 0xe6db99e5, 0x1fa27cf8, 0xc4ac5665,
  0xf4292244, 0x432aff97, 0xab9423a7, 0xfc93a039, 0x655b59c3, 0x8f0ccc92, 0xffeff47d, 0x85845dd1,
  0x6fa87e4f, 0xfe2ce6e0, 0xa3014314, 0x4e0811a1, 0xf7537e82, 0xbd3af235, 0x2ad7d2bb, 0xeb86d391]

/-- The MD5 per-round left-rotation amounts. -/
def md5S : List Nat := [
  7, 12, 17, 22, 7, 12, 17, 22, 7, 12, 17, 22, 7, 12, 17, 22,
  5, 9, 14, 20, 5, 9, 14, 20, 5, 9, 14, 20, 5, 9, 14, 20,
  4, 11, 16, 23, 4, 11, 16, 23, 4, 11, 16, 23, 4, 11, 16, 23,
  6, 10, 15, 21, 6, 10, 15, 21, 6, 10, 15, 21, 6, 10, 15, 21]

/-- Splits a byte list into sublists of `n` bytes. -/
def chunkBytes (n : Nat) : List Nat → List (List Nat)
  | [] => []
  | x :: xs =>
      let rest := chunkBytes n xs
      match rest with
      | [] => [[x]]
      | grp :: grps => if grp.length < n then (x :: grp) :: grps else [x] :: grp :: grps

/-- Little-endian 32-bit words of a 64-byte block. -/
def blockWords (block : List Nat) : List Nat :=
  (chunkBytes 4 block.reverse).reverse.map
    (fun b => match b.reverse with
      | [b0, b1, b2, b3] => b0 + b1 * 256 + b2 * 65536 + b3 * 16777216
      | _ => 0)

/-- One MD5 round `i` on the state `(a, b, c, d)` with the block words `m`. -/
def md5Round (m : List Nat) (st : Nat × Nat × Nat × Nat) (i : Nat) : Nat × Nat × Nat × Nat :=
  let (a, b, c, d) := st
  let f :=
    if i < 16 then (b &&& c) ||| (not32 b &&& d)
    else if i < 32 then (d &&& b) ||| (not32 d &&& c)
    else if i < 48 then b ^^^ c ^^^ d
    else c ^^^ (b ||| not32 d)
  let g :=
    if i < 16 then i
    else if i < 32 then (5 * i + 1) % 16
    else if i < 48 then (3 * i + 5) % 16
    else (7 * i) % 16
  let f2 := add32 (add32 (add32 f a) (md5K.getD i 0)) (m.getD g 0)
  (d, add32 b (rotl32 f2 (md5S.getD i 0)), b, c)

/-- Processes one 64-byte block into the running MD5 state. -/
def md5Block (st : Nat × Nat × Nat × Nat) (block : List Nat) : Nat × Nat × Nat × Nat :=
  let m := blockWords block
  let (a, b, c, d) := (List.range 64).foldl (md5Round m) st
  let (a0, b0, c0, d0) := st
  (add32 a0 a, add32 b0 b, add32 c0 c, add32 d0 d)

/-- Little-endian byte expansion of a 32-bit word. -/
def wordBytes (w : Nat) : List Nat :=
  [w % 256, w / 256 % 256, w / 65536 % 256, w / 16777216 % 256]

/-- `crypto/md5`: the 16-byte MD5 digest of a byte string. -/
def md5Bytes (msg : List Nat) : List Nat :=
  let bitLen := msg.length * 8
  let padLen := (55 + 64 - msg.length % 64) % 64 + 1
  let lenBytes := (List.range 8).map (fun i => bitLen / 256 ^ i % 256)
  let padded := msg ++ [0x80] ++ List.replicate (padLen - 1) 0 ++ lenBytes
  let (a, b, c, d) :=
    (chunkBytes 64 padded).foldl md5Block (0x67452301, 0xefcdab89, 0x98badcfe, 0x10325476)
  wordBytes a ++ wordBytes b ++ wordBytes c ++ wordBytes d

/-- The base64 standard alphabet. -/
def base64Alphabet : Str :=
  strOf "ABCDEFGHIJKLMNOPQRSTUVWXYZabcdefghijklmnopqrstuvwxyz0123456789+/"

/-- `encoding/base64` `StdEncoding.EncodeToString`. -/
def base64Encode : List Nat → Str
  | [] => []
  | [b0] =>
      [base64Alphabet.getD (b0 / 4) ' ', base64Alphabet.getD (b0 % 4 * 16) ' ', '=', '=']
  | [b0, b1] =>
      [base64Alphabet.getD (b0 / 4) ' ', base64Alphabet.getD (b0 % 4 * 16 + b1 / 16) ' ',
       base64Alphabet.getD (b1 % 16 * 4) ' ', '=']
  | b0 :: b1 :: b2 :: rest =>
      [base64Alphabet.getD (b0 / 4) ' ', base64Alphabet.getD (b0 % 4 * 16 + b1 / 16) ' ',
       base64Alphabet.getD (b1 % 16 * 4 + b2 / 64) ' ', base64Alphabet.getD (b2 % 64) ' '] ++
      base64Encode rest

/-- `getIpid` from `bot.go`: strips the port with `net.SplitHostPort` (on
error the input has no port and is used as-is), hashes the IP with MD5,
base64-encodes the digest, and trims the two trailing padding characters. -/
def getIpid (s : Str) : Str :=
  let ip := match splitHostPort s with
    | some (host, _) => host
    | Option.none => s
  let ipid := base64Encode (md5Bytes (utf8Encode ip))
  ipid.take (ipid.length - 2)

/-! Theorems. -/

theorem byteLen_append (a b : Str) : byteLen (a ++ b) = byteLen a + byteLen b := by
  simp [byteLen]

theorem goJoin_cons_of_ne_nil (sep x : Str) (l : List Str) (h : l ≠ []) :
    goJoin sep (x :: l) = x ++ sep ++ goJoin sep l := by
  cases l with
  | nil => exact absurd rfl h
  | cons y ys => rfl

theorem goJoin_snoc_le (sep i : Str) (cur rest : List Str) :
    byteLen (goJoin sep (cur ++ [i])) ≤ byteLen (goJoin sep (cur ++ i :: rest)) := by
  induction cur with
  | nil =>
      cases rest with
      | nil => simp
      | cons r rs =>
          simp only [List.nil_append, goJoin]
          simp [byteLen_append]
  | cons x cur ih =>
      rw [List.cons_append, List.cons_append,
        goJoin_cons_of_ne_nil sep x (cur ++ [i]) (by simp),
        goJoin_cons_of_ne_nil sep x (cur ++ i :: rest) (by simp)]
      simp only [byteLen_append]
      omega

theorem encodePacket_snoc_le (h i : Str) (cur rest : List Str) :
    byteLen (encodePacket h (cur ++ [i])) ≤ byteLen (encodePacket h (cur ++ i :: rest)) := by
  simp only [encodePacket, byteLen_append]
  have := goJoin_snoc_le ['#'] i cur rest
  omega

theorem chunkGreedy_flatten (m : Nat) (h : Str) (items : List Str) :
    ∀ cur, (chunkGreedy m h items cur).flatten = cur ++ items := by
  induction items with
  | nil => intro cur; simp [chunkGreedy]
  | cons i rest ih =>
      intro cur
      rw [chunkGreedy]
      split
      · simp [ih]
      · rw [ih (cur ++ [i])]; simp

theorem chunkGreedy_sizes (m : Nat) (h : Str) (items : List Str) :
    ∀ cur, cur ≠ [] → byteLen (encodePacket h cur) ≤ m →
    (∀ i ∈ items, byteLen (encodePacket h [i]) ≤ m) →
    ∀ g ∈ chunkGreedy m h items cur, byteLen (encodePacket h g) ≤ m := by
  induction items with
  | nil =>
      intro cur _ hcur _ g hg
      simp [chunkGreedy] at hg
      subst hg
      exact hcur
  | cons i rest ih =>
      intro cur hne hcur hfit g hg
      rw [chunkGreedy] at hg
      split at hg
      · rcases List.mem_cons.mp hg with rfl | hg
        · exact hcur
        · exact ih [i] (by simp) (hfit i (by simp)) (fun j hj => hfit j (by simp [hj])) g hg
      · rename_i hcond
        have hle : byteLen (encodePacket h (cur ++ [i])) ≤ m := by
          rcases List.eq_nil_or_concat cur with rfl | _
          · simpa using hfit i (by simp)
          · have : ¬ m < byteLen (encodePacket h (cur ++ [i])) := by
              intro hlt; exact hcond ⟨hne, hlt⟩
            omega
        exact ih (cur ++ [i]) (by simp) hle (fun j hj => hfit j (by simp [hj])) g hg

theorem chunkGreedy_single (m : Nat) (h : Str) (items : List Str) :
    ∀ cur, byteLen (encodePacket h (cur ++ items)) ≤ m →
    chunkGreedy m h items cur = [cur ++ items] := by
  induction items with
  | nil => intro cur _; simp [chunkGreedy]
  | cons i rest ih =>
      intro cur hle
      have hstep : byteLen (encodePacket h (cur ++ [i])) ≤ m :=
        le_trans (encodePacket_snoc_le h i cur rest) hle
      rw [chunkGreedy, if_neg (by intro hc; omega)]
      rw [ih (cur ++ [i]) (by simpa [List.append_assoc] using hle)]
      simp

/-- C1 (amended): sending a list through the chunked-packet operation emits
an ordered sequence of complete packets, one per greedy chunk, all sharing
the same header; no list item is split across two packets and the chunks of
all packets in emission order concatenate to the original list exactly; a
list that already fits in one packet produces exactly one packet; and —
provided every item fits in a packet by itself under the configured maximum
— no emitted packet's encoded size exceeds the configured maximum. -/
theorem chunking_correct (maxSize : Nat) (header : Str) (contents : List Str)
    (hfit : ∀ i ∈ contents, byteLen (encodePacket header [i]) ≤ maxSize) :
    sendChunkedPacket maxSize header contents =
      (chunkGreedy maxSize header contents []).map (encodePacket header) ∧
    (∀ p ∈ sendChunkedPacket maxSize header contents, p.take header.length = header) ∧
    (chunkGreedy maxSize header contents []).flatten = contents ∧
    (contents ≠ [] → ∀ p ∈ sendChunkedPacket maxSize header contents, byteLen p ≤ maxSize) ∧
    (byteLen (encodePacket header contents) ≤ maxSize →
      sendChunkedPacket maxSize header contents = [encodePacket header contents]) := by
  refine ⟨rfl, ?_, ?_, ?_, ?_⟩
  · intro p hp
    rcases List.mem_map.mp hp with ⟨g, _, rfl⟩
    simp [encodePacket, List.take_left]
  · simpa using chunkGreedy_flatten maxSize header contents []
  · intro hne p hp
    rcases List.mem_map.mp hp with ⟨g, hg, rfl⟩
    cases contents with
    | nil => exact absurd rfl hne
    | cons i rest =>
        rw [chunkGreedy, if_neg (by simp)] at hg
        exact chunkGreedy_sizes maxSize header rest [i] (by simp)
          (hfit i (by simp)) (fun j hj => hfit j (by simp [hj])) g hg
  · intro hone
    rw [sendChunkedPacket, chunkGreedy_single maxSize header contents [] (by simpa using hone)]
    simp

/-- C1 witness: the amended theorem applied to a concrete three-item list
with a 30-byte budget. -/
theorem chunking_correct_witness :
    sendChunkedPacket 30 (strOf "SC") [strOf "aaaa", strOf "bbbb", strOf "cccc"] =
      (chunkGreedy 30 (strOf "SC") [strOf "aaaa", strOf "bbbb", strOf "cccc"] []).map
        (encodePacket (strOf "SC")) ∧
    (∀ p ∈ sendChunkedPacket 30 (strOf "SC") [strOf "aaaa", strOf "bbbb", strOf "cccc"],
      p.take (strOf "SC").length = strOf "SC") ∧
    (chunkGreedy 30 (strOf "SC") [strOf "aaaa", strOf "bbbb", strOf "cccc"] []).flatten =
      [strOf "aaaa", strOf "bbbb", strOf "cccc"] ∧
    ([strOf "aaaa", strOf "bbbb", strOf "cccc"] ≠ ([] : List Str) →
      ∀ p ∈ sendChunkedPacket 30 (strOf "SC") [strOf "aaaa", strOf "bbbb", strOf "cccc"],
        byteLen p ≤ 30) ∧
    (byteLen (encodePacket (strOf "SC") [strOf "aaaa", strOf "bbbb", strOf "cccc"]) ≤ 30 →
      sendChunkedPacket 30 (strOf "SC") [strOf "aaaa", strOf "bbbb", strOf "cccc"] =
        [encodePacket (strOf "SC") [strOf "aaaa", strOf "bbbb", strOf "cccc"]]) :=
  chunking_correct 30 (strOf "SC") [strOf "aaaa", strOf "bbbb", strOf "cccc"] (by decide)

/-- C1 counterexample: as literally stated — for every list and every
configured maximum — the size bound fails: with a maximum of 4 bytes, a
single 8-byte item is emitted as one unsplittable packet of 13 bytes. -/
theorem chunking_oversized_item_counterexample :
    ¬ (∀ p ∈ sendChunkedPacket 4 (strOf "SC") [strOf "aaaaaaaa"], byteLen p ≤ 4) := by
  decide

theorem findFreeUid_some (live : List Nat) :
    ∀ fuel cur x, findFreeUid live fuel cur = some x →
    x ∉ live ∧ cur ≤ x ∧ x < cur + fuel ∧ ∀ y, cur ≤ y → y < x → y ∈ live := by
  intro fuel
  induction fuel with
  | zero => intro cur x hx; simp [findFreeUid] at hx
  | succ fuel ih =>
      intro cur x hx
      rw [findFreeUid] at hx
      split at hx
      · rename_i hcur
        obtain ⟨h1, h2, h3, h4⟩ := ih (cur + 1) x hx
        refine ⟨h1, by omega, by omega, fun y hy1 hy2 => ?_⟩
        rcases Nat.eq_or_lt_of_le hy1 with rfl | hy
        · exact hcur
        · exact h4 y hy hy2
      · rename_i hcur
        obtain rfl := Option.some.inj hx
        exact ⟨hcur, le_refl _, by omega, fun y hy1 hy2 => absurd hy2 (by omega)⟩

theorem findFreeUid_none (live : List Nat) :
    ∀ fuel cur, findFreeUid live fuel cur = Option.none ↔
      ∀ y, cur ≤ y → y < cur + fuel → y ∈ live := by
  intro fuel
  induction fuel with
  | zero =>
      intro cur
      constructor
      · intro _ y h1 h2
        exact absurd h2 (by omega)
      · intro _
        rfl
  | succ fuel ih =>
      intro cur
      rw [findFreeUid]
      split
      · rename_i hcur
        rw [ih (cur + 1)]
        constructor
        · intro h y hy1 hy2
          rcases Nat.eq_or_lt_of_le hy1 with rfl | hy
          · exact hcur
          · exact h y hy (by omega)
        · intro h y hy1 hy2
          exact h y (by omega) (by omega)
      · rename_i hcur
        simp only [reduceCtorEq, false_iff]
        intro h
        exact hcur (h cur (le_refl _) (by omega))

theorem uidRun_invariant (n : Nat) (ops : List UidOp) :
    (uidRun n ops).Nodup ∧ ∀ x ∈ uidRun n ops, x < n := by
  rw [uidRun]
  generalize hst : ([] : List Nat) = st
  have hInv : st.Nodup ∧ ∀ x ∈ st, x < n := by subst hst; simp
  clear hst
  induction ops generalizing st with
  | nil => exact hInv
  | cons op rest ih =>
      rw [List.foldl_cons]
      apply ih
      obtain ⟨hnd, hbd⟩ := hInv
      cases op with
      | alloc =>
          rw [uidStep]
          rcases halloc : uidAllocate n st with _ | x
          · exact ⟨hnd, hbd⟩
          · obtain ⟨hx1, _, hx3, _⟩ := findFreeUid_some st n 0 x halloc
            constructor
            · simpa [List.nodup_append] using ⟨hnd, hx1⟩
            · intro y hy
              rcases List.mem_append.mp hy with hy | hy
              · exact hbd y hy
              · simp at hy; omega
      | release id =>
          exact ⟨hnd.erase id, fun x hx => hbd x (List.mem_of_mem_erase hx)⟩

/-- C2: for every sequence of Allocate and Release operations on a UID pool
of size N, the allocator never has two simultaneously-live ids that are
equal, never returns an id outside [0, N), returns a full-capacity error
exactly when no id remains, and each Allocate returns the smallest
currently-free id. -/
theorem uid_allocator_correct (n : Nat) (ops : List UidOp) :
    (uidRun n ops).Nodup ∧
    (∀ x ∈ uidRun n ops, x < n) ∧
    (uidAllocate n (uidRun n ops) = Option.none ↔ ∀ y, y < n → y ∈ uidRun n ops) ∧
    (∀ x, uidAllocate n (uidRun n ops) = some x →
      x < n ∧ x ∉ uidRun n ops ∧ ∀ y, y < x → y ∈ uidRun n ops) := by
  obtain ⟨hnd, hbd⟩ := uidRun_invariant n ops
  refine ⟨hnd, hbd, ?_, ?_⟩
  · rw [uidAllocate, findFreeUid_none]
    exact ⟨fun h y hy => h y (by omega) (by omega), fun h y _ hy => h y (by omega)⟩
  · intro x hx
    obtain ⟨h1, _, h3, h4⟩ := findFreeUid_some (uidRun n ops) n 0 x hx
    exact ⟨by omega, h1, fun y hy => h4 y (by omega) hy⟩

/-- C2 witness: the allocator theorem applied to a pool of size 3 and the
operation sequence alloc, alloc, release 0, alloc — after which the live
ids are 1 and 0 and the next Allocate returns 2, the smallest free id. -/
theorem uid_allocator_correct_witness :
    (uidRun 3 [.alloc, .alloc, .release 0, .alloc]).Nodup ∧
    (∀ x ∈ uidRun 3 [.alloc, .alloc, .release 0, .alloc], x < 3) ∧
    (uidAllocate 3 (uidRun 3 [.alloc, .alloc, .release 0, .alloc]) = Option.none ↔
      ∀ y, y < 3 → y ∈ uidRun 3 [.alloc, .alloc, .release 0, .alloc]) ∧
    (∀ x, uidAllocate 3 (uidRun 3 [.alloc, .alloc, .release 0, .alloc]) = some x →
      x < 3 ∧ x ∉ uidRun 3 [.alloc, .alloc, .release 0, .alloc] ∧
      ∀ y, y < x → y ∈ uidRun 3 [.alloc, .alloc, .release 0, .alloc]) :=
  uid_allocator_correct 3 [.alloc, .alloc, .release 0, .alloc]

theorem map_replace_of_not_mem (ps : List PunishmentState) (t : PunishmentType)
    (e : PunishmentState) (h : t ∉ ps.map (fun p => p.punishmentType)) :
    ps.map (fun p => if p.punishmentType = t then e else p) = ps := by
  induction ps with
  | nil => rfl
  | cons p rest ih =>
      simp only [List.map_cons, List.mem_cons] at h ⊢
      rw [if_neg (by intro hpt; exact h (Or.inl hpt.symm)), ih (fun hm => h (Or.inr hm))]

theorem filter_type_nil_of_not_mem (ps : List PunishmentState) (t : PunishmentType)
    (h : t ∉ ps.map (fun p => p.punishmentType)) :
    ps.filter (fun p => p.punishmentType = t) = [] := by
  induction ps with
  | nil => rfl
  | cons p rest ih =>
      simp only [List.map_cons, List.mem_cons] at h
      rw [List.filter_cons_of_neg (by simp; intro hpt; exact h (Or.inl hpt.symm))]
      exact ih (fun hm => h (Or.inr hm))

theorem addPunishment_types_nodup (ps : List PunishmentState) (t : PunishmentType)
    (d : Nat) (r : Str) (hnd : (ps.map (fun p => p.punishmentType)).Nodup) :
    ((addPunishment ps t d r).map (fun p => p.punishmentType)).Nodup := by
  rw [addPunishment]
  split
  · have : (ps.map (fun p => if p.punishmentType = t then (⟨t, d, r⟩ : PunishmentState) else p)).map
        (fun p => p.punishmentType) = ps.map (fun p => p.punishmentType) := by
      rw [List.map_map]
      apply List.map_congr_left
      intro p _
      by_cases hp : p.punishmentType = t <;> simp [hp]
    rw [this]
    exact hnd
  · rename_i hany
    have ht : t ∉ ps.map (fun p => p.punishmentType) := by
      intro hm
      rcases List.mem_map.mp hm with ⟨p, hp, rfl⟩
      exact hany (List.any_eq_true.mpr ⟨p, hp, by simp⟩)
    simp only [List.map_append, List.map_cons, List.map_nil]
    refine List.Nodup.append hnd (List.nodup_singleton t) ?_
    intro a ha hb
    simp only [List.mem_singleton] at hb
    subst hb
    exact ht ha

theorem addPunishment_filter_eq (ps : List PunishmentState) (t : PunishmentType)
    (d : Nat) (r : Str) (hnd : (ps.map (fun p => p.punishmentType)).Nodup) :
    (addPunishment ps t d r).filter (fun p => p.punishmentType = t) =
      [⟨t, d, r⟩] := by
  rw [addPunishment]
  split
  · rename_i hany
    rcases List.any_eq_true.mp hany with ⟨q, hq, hqt⟩
    replace hqt : q.punishmentType = t := by simpa using hqt
    clear hany
    induction ps with
    | nil => simp at hq
    | cons p rest ih =>
        simp only [List.map_cons, List.nodup_cons] at hnd
        rcases List.mem_cons.mp hq with rfl | hq2
        · rw [List.map_cons, if_pos hqt, List.filter_cons_of_pos (by simp),
            map_replace_of_not_mem rest t _ (by rw [← hqt]; exact hnd.1),
            filter_type_nil_of_not_mem rest t (by rw [← hqt]; exact hnd.1)]
        · have hpt : p.punishmentType ≠ t := by
            intro hpt
            exact hnd.1 (hpt ▸ (hqt ▸ List.mem_map.mpr ⟨q, hq2, rfl⟩))
          rw [List.map_cons, if_neg hpt, List.filter_cons_of_neg (by simpa using hpt)]
          exact ih hnd.2 hq2
  · rename_i hany
    have ht : t ∉ ps.map (fun p => p.punishmentType) := by
      intro hm
      rcases List.mem_map.mp hm with ⟨p, hp, rfl⟩
      exact hany (List.any_eq_true.mpr ⟨p, hp, by simp⟩)
    rw [List.filter_append, filter_type_nil_of_not_mem ps t ht]
    simp

/-- C3: for every client whose punishment list has at most one entry per
type, calling AddPunishment twice with the same punishment type leaves
exactly one entry of that type, reflecting the second call's duration and
reason; calling AddPunishment with two (fresh) different types leaves both
entries present, in the order they were added. -/
theorem addPunishment_replace_and_stack (ps : List PunishmentState)
    (t t1 t2 : PunishmentType) (d1 d2 : Nat) (r1 r2 : Str)
    (hnd : (ps.map (fun p => p.punishmentType)).Nodup) :
    ((addPunishment (addPunishment ps t d1 r1) t d2 r2).filter
        (fun p => p.punishmentType = t) = [⟨t, d2, r2⟩]) ∧
    (t1 ≠ t2 → t1 ∉ ps.map (fun p => p.punishmentType) →
      t2 ∉ ps.map (fun p => p.punishmentType) →
      addPunishment (addPunishment ps t1 d1 r1) t2 d2 r2 =
        ps ++ [⟨t1, d1, r1⟩, ⟨t2, d2, r2⟩]) := by
  constructor
  · exact addPunishment_filter_eq _ t d2 r2 (addPunishment_types_nodup ps t d1 r1 hnd)
  · intro hne h1 h2
    have e1 : addPunishment ps t1 d1 r1 = ps ++ [⟨t1, d1, r1⟩] := by
      rw [addPunishment, if_neg]
      simp only [List.any_eq_true, not_exists, not_and]
      intro p hp
      simp only [decide_eq_true_eq]
      intro hpt
      exact h1 (List.mem_map.mpr ⟨p, hp, hpt⟩)
    rw [e1, addPunishment, if_neg]
    · simp
    · simp only [List.any_eq_true, not_exists, not_and]
      intro p hp
      simp only [decide_eq_true_eq]
      intro hpt
      rcases List.mem_append.mp hp with hp | hp
      · exact h2 (List.mem_map.mpr ⟨p, hp, hpt⟩)
      · simp at hp
        subst hp
        exact hne (by simpa using hpt)

/-- C3 witness: starting from an empty punishment list, uppercase applied
twice keeps one uppercase entry with the second reason, and uppercase then
backward keeps both in insertion order (the scenarios of
`TestPunishmentReplacement` and `TestStackingPunishments`). -/
theorem addPunishment_replace_and_stack_witness :
    ((addPunishment (addPunishment [] .uppercase 600 (strOf "First"))
        .uppercase 1200 (strOf "Second")).filter
        (fun p => p.punishmentType = PunishmentType.uppercase) =
      [⟨.uppercase, 1200, strOf "Second"⟩]) ∧
    (PunishmentType.uppercase ≠ PunishmentType.backward →
      PunishmentType.uppercase ∉ ([] : List PunishmentState).map (fun p => p.punishmentType) →
      PunishmentType.backward ∉ ([] : List PunishmentState).map (fun p => p.punishmentType) →
      addPunishment (addPunishment [] .uppercase 600 (strOf "First"))
          .backward 1200 (strOf "Second") =
        [] ++ [⟨.uppercase, 600, strOf "First"⟩, ⟨.backward, 1200, strOf "Second"⟩]) :=
  addPunishment_replace_and_stack [] .uppercase .uppercase .backward 600 1200
    (strOf "First") (strOf "Second") (by simp)

/-- C4: punishment effects compose in insertion order, each effect's output
becoming the next effect's input; in particular applying the uppercase
effect and then the backward effect to "hello world" yields "HELLO WORLD"
after the first step and "DLROW OLLEH" after the second. -/
theorem punishment_insertion_order_composition :
    (∀ (f g : Str → Str) (text : Str), applyPunishmentPipeline [f, g] text = g (f text)) ∧
    applyUppercase (strOf "hello world") = strOf "HELLO WORLD" ∧
    applyBackward (strOf "HELLO WORLD") = strOf "DLROW OLLEH" ∧
    applyPunishmentPipeline [applyUppercase, applyBackward] (strOf "hello world") =
      strOf "DLROW OLLEH" :=
  ⟨fun _ _ _ => rfl, by decide, by decide, by decide⟩

theorem getArea_setArea_self (st : LockServer) (i : Nat) (a : AreaState)
    (h : i < st.areas.length) : getArea (setArea st i a) i = a := by
  simp [getArea, setArea, List.getD_eq_getElem?_getD, List.getElem?_set, h]

theorem setArea_areas_length (st : LockServer) (i : Nat) (a : AreaState) :
    (setArea st i a).areas.length = st.areas.length := by
  simp [setArea]

theorem setArea_occupants (st : LockServer) (i : Nat) (a : AreaState) :
    (setArea st i a).occupants = st.occupants := rfl

theorem addInvited_lock (a : AreaState) (u : Nat) : (addInvited a u).lock = a.lock := by
  rw [addInvited]; split <;> rfl

theorem addInvited_mono (a : AreaState) (u v : Nat) (h : v ∈ a.invited) :
    v ∈ (addInvited a u).invited := by
  rw [addInvited]; split
  · exact h
  · simp [h]

theorem addInvited_self (a : AreaState) (u : Nat) : u ∈ (addInvited a u).invited := by
  rw [addInvited]; split
  · assumption
  · simp

theorem inviteOccupants_foldl (ci : Nat) (cls : List (Nat × Nat)) :
    ∀ st : LockServer, ci < st.areas.length →
    let st' := cls.foldl
      (fun s c => if c.2 = ci then setArea s ci (addInvited (getArea s ci) c.1) else s) st
    ci < st'.areas.length ∧
    (getArea st' ci).lock = (getArea st ci).lock ∧
    (∀ u, u ∈ (getArea st ci).invited → u ∈ (getArea st' ci).invited) ∧
    (∀ p ∈ cls, p.2 = ci → p.1 ∈ (getArea st' ci).invited) := by
  induction cls with
  | nil =>
      intro st hci
      exact ⟨hci, rfl, fun u hu => hu, fun p hp => absurd hp (List.not_mem_nil p)⟩
  | cons c rest ih =>
      intro st hci
      simp only [List.foldl_cons]
      by_cases hc : c.2 = ci
      · rw [if_pos hc]
        have hlen : ci < (setArea st ci (addInvited (getArea st ci) c.1)).areas.length := by
          rw [setArea_areas_length]; exact hci
        obtain ⟨k1, k2, k3, k4⟩ := ih (setArea st ci (addInvited (getArea st ci) c.1)) hlen
        rw [getArea_setArea_self st ci _ hci] at k2 k3
        refine ⟨k1, by rw [k2, addInvited_lock], ?_, ?_⟩
        · intro u hu
          exact k3 u (addInvited_mono _ c.1 u hu)
        · intro p hp hpc
          rcases List.mem_cons.mp hp with rfl | hp2
          · exact k3 p.1 (addInvited_self _ p.1)
          · exact k4 p hp2 hpc
      · rw [if_neg hc]
        obtain ⟨k1, k2, k3, k4⟩ := ih st hci
        refine ⟨k1, k2, k3, ?_⟩
        intro p hp hpc
        rcases List.mem_cons.mp hp with rfl | hp2
        · exact absurd hpc hc
        · exact k4 p hp2 hpc

/-- C5: area lock transitions behave as a state machine — locking a free
(non-zero) area sets it locked and auto-invites every client whose current
area is the locked area; locking an already-locked area is rejected with a
user-visible message and changes no state; area 0 cannot be locked; and
unlocking a non-free area sets the lock state back to free and clears the
invited set. -/
theorem area_lock_transitions (st : LockServer) (ci uid ai : Nat) :
    ((getArea st ci).lock = .free → ci ≠ 0 → ci < st.areas.length →
      (getArea (cmdLock st ci false).1 ci).lock = .locked ∧
      ((uid, ai) ∈ st.occupants → ai = ci →
        uid ∈ (getArea (cmdLock st ci false).1 ci).invited)) ∧
    ((getArea st ci).lock = .locked →
      cmdLock st ci false = (st, [strOf "This area is already locked."])) ∧
    ((getArea st 0).lock ≠ .locked →
      cmdLock st 0 false = (st, [strOf "You cannot lock area 0."])) ∧
    ((getArea st ci).lock ≠ .free → ci < st.areas.length →
      (getArea (cmdUnlock st ci).1 ci).lock = .free ∧
      (getArea (cmdUnlock st ci).1 ci).invited = []) := by
  refine ⟨?_, ?_, ?_, ?_⟩
  · intro hfree hc0 hci
    have hres : (cmdLock st ci false).1 =
        inviteOccupants (setArea st ci { getArea st ci with lock := .locked }) ci := by
      rw [cmdLock, if_neg Bool.false_ne_true, if_neg (by rw [hfree]; exact fun h => nomatch h),
        if_neg hc0]
    set st1 := setArea st ci { getArea st ci with lock := .locked } with hst1
    have hlen : ci < st1.areas.length := by rw [hst1, setArea_areas_length]; exact hci
    obtain ⟨_, k2, _, k4⟩ := inviteOccupants_foldl ci st1.occupants st1 hlen
    constructor
    · rw [hres, inviteOccupants, k2, hst1, getArea_setArea_self st ci _ hci]
    · intro hmem hai
      rw [hres, inviteOccupants]
      exact k4 (uid, ai) (by rw [hst1, setArea_occupants]; exact hmem) hai
  · intro hlocked
    rw [cmdLock, if_neg Bool.false_ne_true, if_pos hlocked]
  · intro hnl
    rw [cmdLock, if_neg Bool.false_ne_true, if_neg hnl, if_pos rfl]
  · intro hnf hci
    rw [cmdUnlock, if_neg hnf]
    rw [getArea_setArea_self st ci _ hci]
    exact ⟨rfl, rfl⟩

/-- C5 witness: the lock state machine theorem discharged on concrete
two-area servers — locking area 1 of a free area invites its occupant 7,
locking an already-locked area 1 and locking area 0 are rejected unchanged,
and unlocking a locked area frees it and clears the invited set. -/
theorem area_lock_transitions_witness :
    (getArea (cmdLock ⟨[⟨.free, []⟩, ⟨.free, []⟩], [(7, 1), (3, 0)]⟩ 1 false).1 1).lock
        = .locked ∧
    7 ∈ (getArea (cmdLock ⟨[⟨.free, []⟩, ⟨.free, []⟩], [(7, 1), (3, 0)]⟩ 1 false).1 1).invited ∧
    cmdLock ⟨[⟨.free, []⟩, ⟨.locked, [4]⟩], []⟩ 1 false =
      (⟨[⟨.free, []⟩, ⟨.locked, [4]⟩], []⟩, [strOf "This area is already locked."]) ∧
    cmdLock ⟨[⟨.free, []⟩], []⟩ 0 false =
      (⟨[⟨.free, []⟩], []⟩, [strOf "You cannot lock area 0."]) ∧
    (getArea (cmdUnlock ⟨[⟨.free, []⟩, ⟨.locked, [4]⟩], []⟩ 1).1 1).lock = .free ∧
    (getArea (cmdUnlock ⟨[⟨.free, []⟩, ⟨.locked, [4]⟩], []⟩ 1).1 1).invited = [] :=
  ⟨((area_lock_transitions ⟨[⟨.free, []⟩, ⟨.free, []⟩], [(7, 1), (3, 0)]⟩ 1 7 1).1
      (by decide) (by decide) (by decide)).1,
   ((area_lock_transitions ⟨[⟨.free, []⟩, ⟨.free, []⟩], [(7, 1), (3, 0)]⟩ 1 7 1).1
      (by decide) (by decide) (by decide)).2 (by decide) rfl,
   (area_lock_transitions ⟨[⟨.free, []⟩, ⟨.locked, [4]⟩], []⟩ 1 0 0).2.1 (by decide),
   (area_lock_transitions ⟨[⟨.free, []⟩], []⟩ 0 0 0).2.2.1 (by decide),
   ((area_lock_transitions ⟨[⟨.free, []⟩, ⟨.locked, [4]⟩], []⟩ 1 0 0).2.2.2
      (by decide) (by decide)).1,
   ((area_lock_transitions ⟨[⟨.free, []⟩, ⟨.locked, [4]⟩], []⟩ 1 0 0).2.2.2
      (by decide) (by decide)).2⟩

/-- C6: testimony recorder transition guards — a "delete" action while the
current statement index is 0 is silently rejected and mutates nothing (the
first statement is protected); "delete" while the index is greater than 0
(and in range) succeeds, removing the current statement; "update" and
"insert" while the recorder is not in the playback state are rejected with
a user-visible message and cause no state mutation. -/
theorem testimony_recorder_guards (a : TstArea) :
    (a.tstState = .playback → a.tstIndex = 0 →
      cmdTestimony a true [strOf "delete"] = (a, [])) ∧
    (a.tstState = .playback → 0 < a.tstIndex → a.tstIndex < a.testimony.length →
      (cmdTestimony a true [strOf "delete"]).1.testimony =
        a.testimony.eraseIdx a.tstIndex ∧
      (cmdTestimony a true [strOf "delete"]).2 = []) ∧
    (a.tstState ≠ .playback →
      cmdTestimony a true [strOf "update"] =
        (a, [.callerMsg (strOf "The recorder is not active.")]) ∧
      cmdTestimony a true [strOf "insert"] =
        (a, [.callerMsg (strOf "The recorder is not active.")])) := by
  refine ⟨?_, ?_, ?_⟩
  · intro hpb hidx
    simp +decide [cmdTestimony, hpb, hidx]
  · intro hpb hpos hlt
    simp +decide [cmdTestimony, tstRemove, hpb, hpos, hlt]
  · intro hnp
    constructor <;> simp +decide [cmdTestimony, hnp]

/-- C6 witness: the recorder guard theorem discharged on concrete areas —
deleting at index 0 of a playback recorder changes nothing, deleting at
index 1 removes the second statement, and update/insert on an idle
recorder are rejected with the message. -/
theorem testimony_recorder_guards_witness :
    cmdTestimony ⟨.playback, [strOf "s0", strOf "s1"], 0⟩ true [strOf "delete"] =
      (⟨.playback, [strOf "s0", strOf "s1"], 0⟩, []) ∧
    (cmdTestimony ⟨.playback, [strOf "s0", strOf "s1"], 1⟩ true [strOf "delete"]).1.testimony =
      [strOf "s0", strOf "s1"].eraseIdx 1 ∧
    cmdTestimony ⟨.idle, [], 0⟩ true [strOf "update"] =
      (⟨.idle, [], 0⟩, [.callerMsg (strOf "The recorder is not active.")]) ∧
    cmdTestimony ⟨.idle, [], 0⟩ true [strOf "insert"] =
      (⟨.idle, [], 0⟩, [.callerMsg (strOf "The recorder is not active.")]) :=
  ⟨(testimony_recorder_guards ⟨.playback, [strOf "s0", strOf "s1"], 0⟩).1 rfl rfl,
   ((testimony_recorder_guards ⟨.playback, [strOf "s0", strOf "s1"], 1⟩).2.1
      rfl (by decide) (by decide)).1,
   ((testimony_recorder_guards ⟨.idle, [], 0⟩).2.2 (by decide)).1,
   ((testimony_recorder_guards ⟨.idle, [], 0⟩).2.2 (by decide)).2⟩

/-- C7: registry snapshot isolation — GetAllClients returns a copy whose
membership is exactly the registry membership as of the moment of the call;
a client not yet added does not appear in a previously returned snapshot
even though AddClient puts it in the registry, and a client removed by
RemoveClient after the snapshot still appears in it even though it is gone
from the registry; iteration over the snapshot is iteration over a plain
immutable list, so no mutation can disturb it. -/
theorem registry_snapshot_isolation (cl : List Nat) (c : Nat) :
    (∀ x, x ∈ getAllClients cl ↔ x ∈ cl) ∧
    (c ∉ cl →
      c ∉ getAllClients cl ∧ c ∈ applyRegOps [RegOp.add c] cl) ∧
    (c ∈ cl →
      c ∈ getAllClients cl ∧ (cl.Nodup → c ∉ applyRegOps [RegOp.remove c] cl)) := by
  refine ⟨fun x => by simp [getAllClients], ?_, ?_⟩
  · intro hnm
    refine ⟨by simpa [getAllClients] using hnm, ?_⟩
    simp [applyRegOps, addClient, hnm]
  · intro hm
    refine ⟨by simpa [getAllClients] using hm, ?_⟩
    intro hnd
    simpa [applyRegOps, removeClient] using hnd.not_mem_erase

/-- C7 witness: the snapshot-isolation theorem discharged on the registry
{1, 2} — adding 3 after a snapshot leaves 3 out of the snapshot, and
removing 2 after a snapshot leaves 2 inside it. -/
theorem registry_snapshot_isolation_witness :
    (3 ∉ getAllClients [1, 2] ∧ 3 ∈ applyRegOps [RegOp.add 3] [1, 2]) ∧
    (2 ∈ getAllClients [1, 2] ∧ ([1, 2] : List Nat).Nodup → 2 ∉ applyRegOps [RegOp.remove 2] [1, 2]) :=
  ⟨(registry_snapshot_isolation [1, 2] 3).2.1 (by decide),
   fun h => ((registry_snapshot_isolation [1, 2] 2).2.2 (by decide)).2 h.2⟩

/-- C8: check-before-act cancellation — when the hot-potato opt-in timer
wakes and finds the opt-in window already closed out by another path, it
returns without mutating any state and without performing any I/O effect;
likewise the game timer when the game is no longer active. -/
theorem timed_task_check_before_act (st : HotPotatoState) (connected : List Nat)
    (pick now carrierUID : Nat) :
    (st.optInActive = false →
      hotPotatoOptInTimerWake st connected pick now = (st, [])) ∧
    (st.gameActive = false →
      hotPotatoGameTimerWake carrierUID st now = (st, [])) := by
  constructor
  · intro h
    rw [hotPotatoOptInTimerWake, if_pos (by simp [h])]
  · intro h
    rw [hotPotatoGameTimerWake, if_pos (by simp [h])]

/-- C8 witness: the cancellation theorem discharged on a concrete cancelled
state — both timers wake, observe the closed-out state, and exit with no
state change and no effects. -/
theorem timed_task_check_before_act_witness :
    hotPotatoOptInTimerWake ⟨false, false, [4, 9], -1, Option.none⟩ [4, 9] 0 100 =
      (⟨false, false, [4, 9], -1, Option.none⟩, []) ∧
    hotPotatoGameTimerWake 4 ⟨false, false, [4, 9], -1, Option.none⟩ 100 =
      (⟨false, false, [4, 9], -1, Option.none⟩, []) :=
  ⟨(timed_task_check_before_act ⟨false, false, [4, 9], -1, Option.none⟩ [4, 9] 0 100 4).1 rfl,
   (timed_task_check_before_act ⟨false, false, [4, 9], -1, Option.none⟩ [4, 9] 0 100 4).2 rfl⟩

theorem lastIndexOf_eq_none (c : Char) (s : Str) (h : c ∉ s) :
    lastIndexOf? c s = Option.none := by
  induction s with
  | nil => rfl
  | cons x xs ih =>
      simp only [List.mem_cons, not_or] at h
      rw [lastIndexOf?, ih h.2, if_neg (fun hx => h.1 hx.symm)]

theorem lastIndexOf_append (c : Char) (a b : Str) (hb : c ∉ b) :
    lastIndexOf? c (a ++ c :: b) = some a.length := by
  induction a with
  | nil => rw [List.nil_append, lastIndexOf?, lastIndexOf_eq_none c b hb, if_pos rfl]; rfl
  | cons x a ih => rw [List.cons_append, lastIndexOf?, ih]; rfl

theorem lastIndexOf_none_iff (c : Char) (s : Str) :
    lastIndexOf? c s = Option.none ↔ c ∉ s := by
  constructor
  · intro h hm
    induction s with
    | nil => simp at hm
    | cons x xs ih =>
        rw [lastIndexOf?] at h
        rcases hx : lastIndexOf? c xs with _ | i
        · rw [hx] at h
          by_cases hxc : x = c
          · rw [if_pos hxc] at h
            exact nomatch h
          · rw [if_neg hxc] at h
            rcases List.mem_cons.mp hm with rfl | hm2
            · exact hxc rfl
            · exact ih hx hm2
        · rw [hx] at h
          exact nomatch h
  · exact lastIndexOf_eq_none c s

theorem indexOfChar_append (c : Char) (a b : Str) (ha : c ∉ a) :
    indexOfChar? c (a ++ c :: b) = some a.length := by
  induction a with
  | nil => rw [List.nil_append, indexOfChar?, if_pos rfl]; rfl
  | cons x a ih =>
      simp only [List.mem_cons, not_or] at ha
      rw [List.cons_append, indexOfChar?, if_neg (fun hx => ha.1 hx.symm), ih ha.2]
      rfl

theorem containsChar_eq_false (s : Str) (c : Char) (h : c ∉ s) :
    containsChar s c = false := by
  rw [containsChar, List.any_eq_false]
  intro x hx
  simp only [decide_eq_true_eq]
  intro hxc
  exact h (hxc ▸ hx)

theorem containsChar_eq_true (s : Str) (c : Char) (h : c ∈ s) :
    containsChar s c = true :=
  List.any_eq_true.mpr ⟨c, h, by simp⟩

theorem lastIndexOf_take_mem (c : Char) (s : Str) (hcc : 2 ≤ s.count c) :
    ∀ i, lastIndexOf? c s = some i → c ∈ s.take i := by
  induction s with
  | nil => simp at hcc
  | cons x xs ih =>
      intro i hi
      rw [lastIndexOf?] at hi
      rcases hx : lastIndexOf? c xs with _ | j
      · rw [hx] at hi
        have hnx : c ∉ xs := (lastIndexOf_none_iff c xs).mp hx
        have h0 : xs.count c = 0 := List.count_eq_zero.mpr hnx
        simp only [List.count_cons, beq_iff_eq] at hcc
        rw [h0] at hcc
        split at hcc <;> omega
      · rw [hx] at hi
        obtain rfl := Option.some.inj hi
        rw [List.take_succ_cons]
        by_cases hxc : x = c
        · exact List.mem_cons.mpr (Or.inl hxc.symm)
        · apply List.mem_cons_of_mem
          apply ih _ j hx
          simp only [List.count_cons, beq_iff_eq] at hcc
          rw [if_neg hxc] at hcc
          omega

theorem splitHostPort_hostport (host port : Str)
    (hne : host ≠ []) (hc : ':' ∉ host) (hb1 : '[' ∉ host) (hb2 : ']' ∉ host)
    (pc : ':' ∉ port) (pb1 : '[' ∉ port) (pb2 : ']' ∉ port) :
    splitHostPort (host ++ ':' :: port) = some (host, port) := by
  rw [splitHostPort, lastIndexOf_append ':' host port pc]
  have hhead : ¬ (host ++ ':' :: port).headD ' ' = '[' := by
    cases host with
    | nil => exact absurd rfl hne
    | cons x xs =>
        simp only [List.cons_append, List.headD_cons]
        intro hx
        exact hb1 (hx ▸ List.mem_cons_self x xs)
  dsimp only
  rw [if_neg hhead, List.take_left, containsChar_eq_false host ':' hc,
    containsChar_eq_false _ '[' (by simp [hb1, pb1]),
    containsChar_eq_false _ ']' (by simp [hb2, pb2])]
  simp only [Bool.false_eq_true, if_false]
  have hdrop : (host ++ ':' :: port).drop (host.length + 1) = port := by
    have hsplit : host ++ ':' :: port = (host ++ [':']) ++ port := by simp
    have hlen : host.length + 1 = (host ++ [':']).length := by simp
    rw [hsplit, hlen, List.drop_left]
  rw [hdrop]

theorem splitHostPort_no_colon (host : Str) (hc : ':' ∉ host) :
    splitHostPort host = Option.none := by
  rw [splitHostPort, lastIndexOf_eq_none ':' host hc]

theorem splitHostPort_bracket (host port : Str)
    (hb1 : '[' ∉ host) (hb2 : ']' ∉ host)
    (pc : ':' ∉ port) (pb1 : '[' ∉ port) (pb2 : ']' ∉ port) :
    splitHostPort ('[' :: host ++ ']' :: ':' :: port) = some (host, port) := by
  have h1 : lastIndexOf? ':' ('[' :: host ++ ']' :: ':' :: port) = some (host.length + 2) := by
    have hshape : '[' :: host ++ ']' :: ':' :: port =
        (('[' :: host) ++ [']']) ++ ':' :: port := by simp
    rw [hshape, lastIndexOf_append ':' _ port pc]
    simp
  have hnb : ']' ∉ ('[' :: host) := by
    intro hm
    rcases List.mem_cons.mp hm with h | h
    · exact absurd h (by decide)
    · exact hb2 h
  have h2 : indexOfChar? ']' ('[' :: host ++ ']' :: ':' :: port) = some (host.length + 1) := by
    have hshape : '[' :: host ++ ']' :: ':' :: port =
        ('[' :: host) ++ ']' :: (':' :: port) := by simp
    rw [hshape, indexOfChar_append ']' ('[' :: host) (':' :: port) hnb]
    simp
  have hlen : ('[' :: host ++ ']' :: ':' :: port).length = host.length + 3 + port.length := by
    simp
    try omega
  have hd1 : ('[' :: host ++ ']' :: ':' :: port).drop 1 = host ++ ']' :: ':' :: port := rfl
  have hd2 : ('[' :: host ++ ']' :: ':' :: port).drop (host.length + 1 + 1) = ':' :: port := by
    have hshape : '[' :: host ++ ']' :: ':' :: port =
        (('[' :: host) ++ [']']) ++ ':' :: port := by simp
    have hlen2 : host.length + 1 + 1 = (('[' :: host) ++ [']']).length := by simp
    rw [hshape, hlen2, List.drop_left]
  have ht : ('[' :: host ++ ']' :: ':' :: port).take (host.length + 1) = '[' :: host := by
    have hshape : '[' :: host ++ ']' :: ':' :: port =
        ('[' :: host) ++ (']' :: ':' :: port) := by simp
    have hlen3 : host.length + 1 = ('[' :: host).length := by simp
    rw [hshape, hlen3, List.take_left]
  have hd3 : ('[' :: host ++ ']' :: ':' :: port).drop (host.length + 2 + 1) = port := by
    have hshape : '[' :: host ++ ']' :: ':' :: port =
        (('[' :: host) ++ [']', ':']) ++ port := by simp
    have hlen4 : host.length + 2 + 1 = (('[' :: host) ++ [']', ':']).length := by
      simp
      try omega
    rw [hshape, hlen4, List.drop_left]
  simp only [List.cons_append] at h1 h2 hlen hd1 hd2 ht hd3
  rw [splitHostPort]
  simp only [List.cons_append, List.headD_cons]
  rw [h1]
  dsimp only
  rw [if_pos trivial, h2]
  dsimp only
  rw [if_neg (by rw [hlen]; omega), if_pos (by omega)]
  rw [hd1, containsChar_eq_false _ '[' (by simp [hb1, pb1]),
    hd2, containsChar_eq_false _ ']' (by simp [pb2])]
  simp only [Bool.false_eq_true, if_false]
  rw [ht, hd3]
  rfl

theorem splitHostPort_multicolon (host : Str) (hb1 : '[' ∉ host)
    (hcc : 2 ≤ host.count ':') : splitHostPort host = Option.none := by
  rw [splitHostPort]
  rcases hli : lastIndexOf? ':' host with _ | i
  · rfl
  · have hne : host ≠ [] := by
      intro h
      rw [h] at hcc
      simp at hcc
    have hhead : ¬ host.headD ' ' = '[' := by
      cases host with
      | nil => exact absurd rfl hne
      | cons x xs =>
          simp only [List.headD_cons]
          intro hx
          exact hb1 (hx ▸ List.mem_cons_self x xs)
    dsimp only
    rw [if_neg hhead, containsChar_eq_true _ ':' (lastIndexOf_take_mem ':' host hcc i hli),
      if_pos rfl]

/-- C9: the anonymized identity token is independent of source port — for a
colon-free host, getIpid of "host:port" equals getIpid of the host alone;
for a bracketed IPv6 host (at least two colons, the wire form of
"host:port" for IPv6), getIpid of "[host]:port" equals getIpid of the bare
host; and equal IP address strings always produce equal tokens, so multiple
connections from one address collapse to one identity. -/
theorem getIpid_port_independence (host port host6 port6 s t : Str) :
    (host ≠ [] → ':' ∉ host → '[' ∉ host → ']' ∉ host →
     ':' ∉ port → '[' ∉ port → ']' ∉ port →
      getIpid (host ++ ':' :: port) = getIpid host) ∧
    ('[' ∉ host6 → ']' ∉ host6 → 2 ≤ host6.count ':' →
     ':' ∉ port6 → '[' ∉ port6 → ']' ∉ port6 →
      getIpid ('[' :: host6 ++ ']' :: ':' :: port6) = getIpid host6) ∧
    (s = t → getIpid s = getIpid t) := by
  refine ⟨?_, ?_, fun h => h ▸ rfl⟩
  · intro hne hc hb1 hb2 pc pb1 pb2
    rw [getIpid, getIpid, splitHostPort_hostport host port hne hc hb1 hb2 pc pb1 pb2,
      splitHostPort_no_colon host hc]
  · intro hb1 hb2 hcc pc pb1 pb2
    rw [getIpid, getIpid, splitHostPort_bracket host6 port6 hb1 hb2 pc pb1 pb2,
      splitHostPort_multicolon host6 hb1 hcc]

/-- C9 witness: the port-independence theorem discharged on the concrete
addresses of `ipid_test.go` — an IPv4 address with and without a port, the
bracketed IPv6 address `[2001:db8::1]:8080` against its bare host, and two
equal address strings. -/
theorem getIpid_port_independence_witness :
    getIpid (strOf "192.168.1.1" ++ ':' :: strOf "12345") = getIpid (strOf "192.168.1.1") ∧
    getIpid ('[' :: strOf "2001:db8::1" ++ ']' :: ':' :: strOf "8080") =
      getIpid (strOf "2001:db8::1") ∧
    getIpid (strOf "10.0.0.1") = getIpid (strOf "10.0.0.1") :=
  ⟨(getIpid_port_independence (strOf "192.168.1.1") (strOf "12345")
      (strOf "2001:db8::1") (strOf "8080") (strOf "10.0.0.1") (strOf "10.0.0.1")).1
      (by decide) (by decide) (by decide) (by decide) (by decide) (by decide) (by decide),
   (getIpid_port_independence (strOf "192.168.1.1") (strOf "12345")
      (strOf "2001:db8::1") (strOf "8080") (strOf "10.0.0.1") (strOf "10.0.0.1")).2.1
      (by decide) (by decide) (by decide) (by decide) (by decide) (by decide),
   (getIpid_port_independence (strOf "192.168.1.1") (strOf "12345")
      (strOf "2001:db8::1") (strOf "8080") (strOf "10.0.0.1") (strOf "10.0.0.1")).2.2 rfl⟩

theorem one_le_utf8CharLen (c : Char) : 1 ≤ utf8CharLen c := by
  rw [utf8CharLen]
  split_ifs <;> omega

theorem length_le_byteLen (s : Str) : s.length ≤ byteLen s := by
  induction s with
  | nil => simp [byteLen]
  | cons c cs ih =>
      have h1 := one_le_utf8CharLen c
      simp only [byteLen, List.map_cons, List.sum_cons, List.length_cons]
      simp only [byteLen] at ih
      omega

theorem safeSubstring_zero (s : Str) (n : Nat) : safeSubstring s 0 n = s.take n := by
  rw [safeSubstring]
  split
  · rename_i h
    have hs : s = [] := List.length_eq_zero.mp (by omega)
    subst hs
    simp
  · simp only [Nat.zero_add, List.drop_zero]
    rcases Nat.le_total n s.length with h | h
    · rw [Nat.min_eq_left h]
    · rw [Nat.min_eq_right h, List.take_of_length_le h, List.take_of_length_le (le_refl _)]

theorem truncateText_length_le (s : Str) : (truncateText s).length ≤ maxTextLength := by
  rw [truncateText]
  split
  · rw [safeSubstring_zero]
    exact List.length_take_le _ _
  · rename_i h
    have h2 := length_le_byteLen s
    rw [not_lt] at h
    omega

/-- C10: truncateText returns the input unchanged when its byte length is at
most 2000, and otherwise exactly the first 2000 runes; consequently its
output never exceeds 2000 runes, and every length-increasing punishment
transform that routes its result through truncateText — stutterstep,
elongate, robotic — produces output of at most 2000 runes. -/
theorem truncateText_caps (s : Str) :
    (byteLen s ≤ maxTextLength → truncateText s = s) ∧
    (maxTextLength < byteLen s → truncateText s = s.take maxTextLength) ∧
    (truncateText s).length ≤ maxTextLength ∧
    (applyStutterstep s).length ≤ maxTextLength ∧
    (applyElongate s).length ≤ maxTextLength ∧
    (applyRobotic s).length ≤ maxTextLength := by
  refine ⟨?_, ?_, truncateText_length_le s, ?_, ?_, ?_⟩
  · intro h
    rw [truncateText, if_neg (by omega)]
  · intro h
    rw [truncateText, if_pos h, safeSubstring_zero]
  · rw [applyStutterstep]
    exact truncateText_length_le _
  · rw [applyElongate]
    exact truncateText_length_le _
  · rw [applyRobotic]
    split
    · decide
    · exact truncateText_length_le _

/-- C10 witness: the cap theorem discharged on a short string (returned
unchanged, transforms capped) and on a 2001-byte string (truncated to the
first 2000 runes). -/
theorem truncateText_caps_witness :
    truncateText (strOf "hello") = strOf "hello" ∧
    truncateText (List.replicate 2001 'a') = (List.replicate 2001 'a').take maxTextLength ∧
    (applyStutterstep (strOf "hello")).length ≤ maxTextLength ∧
    (applyElongate (strOf "hello")).length ≤ maxTextLength ∧
    (applyRobotic (strOf "hello")).length ≤ maxTextLength :=
  ⟨(truncateText_caps (strOf "hello")).1 (by decide),
   (truncateText_caps (List.replicate 2001 'a')).2.1 (by
      have hc : utf8CharLen 'a' = 1 := rfl
      have h : ∀ n : Nat, byteLen (List.replicate n 'a') = n := by
        intro n
        induction n with
        | zero => rfl
        | succ k ih =>
            rw [List.replicate_succ, byteLen, List.map_cons, List.sum_cons, hc]
            rw [byteLen] at ih
            omega
      rw [h 2001]
      decide),
   (truncateText_caps (strOf "hello")).2.2.2.1,
   (truncateText_caps (strOf "hello")).2.2.2.2.1,
   (truncateText_caps (strOf "hello")).2.2.2.2.2⟩
